import Mathlib

/-!
Verification of the `bingoscape-itemdata` item catalog and image-URL library.

Strings are modelled as `List Char`; JavaScript string operations
(`trim`, `split`, `includes`, `parseInt`, per-character `replace`,
`toLowerCase`) are embedded as executable Lean functions over
`List Char` (ASCII fragment). `parseInt`'s NaN result is modelled as
`Option.none`; a JS value of type `number | number[]` is the inductive
`IdResult`; optional object fields are `Option`.
-/

namespace ItemData

/-- JS whitespace (ASCII fragment): space, tab, LF, CR, FF, VT. -/
def jsIsWs (c : Char) : Bool :=
  c = ' ' || c = '\t' || c = '\n' || c = '\r' || c = '\x0b' || c = '\x0c'

/-- Left part of JS `String.trim`. -/
def trimLeft (s : List Char) : List Char := s.dropWhile jsIsWs

/-- Right part of JS `String.trim`. -/
def trimRight (s : List Char) : List Char := (s.reverse.dropWhile jsIsWs).reverse

/-- JS `String.trim`: drop whitespace from both ends. -/
def jsTrim (s : List Char) : List Char := trimRight (trimLeft s)

/-- JS `String.split(sep)` for a single-character separator: the list of
segments between occurrences of `sep` (always non-empty, keeps empty
segments, e.g. `"a,".split(',') = ["a", ""]`). -/
def jsSplit (sep : Char) : List Char → List (List Char)
  | [] => [[]]
  | c :: rest =>
    if c = sep then [] :: jsSplit sep rest
    else
      match jsSplit sep rest with
      | [] => [[c]]
      | s :: ss => (c :: s) :: ss

/-- The apostrophe character (char code 39). -/
def apos : Char := Char.ofNat 39

/-- JS `String.replace(/tgt/g, out)` for a single-character pattern:
replace every occurrence of `tgt` by the string `out`. -/
def repl (tgt : Char) (out : List Char) (s : List Char) : List Char :=
  s.flatMap fun c => if c = tgt then out else [c]

/-- JS `String.toLowerCase`, ASCII fragment: lower the letters A–Z. -/
def jsToLower (c : Char) : Char :=
  if 'A' ≤ c ∧ c ≤ 'Z' then Char.ofNat (c.toNat + 32) else c

/-- Decimal digit character for `d < 10`. -/
def decDigit (d : Nat) : Char := Char.ofNat (48 + d)

/-- Fuelled core of the decimal rendering: most-significant digit first. -/
def natToCharsCore (fuel : Nat) (n : Nat) : List Char :=
  match fuel with
  | 0 => []
  | fuel + 1 =>
    if n < 10 then [decDigit n]
    else natToCharsCore fuel (n / 10) ++ [decDigit (n % 10)]

/-- Decimal rendering of a natural number (JS `${n}` for a non-negative
integer). -/
def natToChars (n : Nat) : List Char := natToCharsCore (n + 1) n

/-- Numeric value of a digit character. -/
def digitVal (c : Char) : Nat := c.toNat - 48

/-- The digit-consuming core of JS `parseInt(s, 10)`: longest digit prefix,
`none` (NaN) when there is no digit. -/
def parseDigits (s : List Char) : Option Nat :=
  let ds := s.takeWhile Char.isDigit
  if ds = [] then none
  else some (ds.foldl (fun acc c => acc * 10 + digitVal c) 0)

/-- JS `parseInt(s, 10)`: skip leading whitespace, optional sign, longest
digit prefix; `none` models NaN. -/
def jsParseInt (s : List Char) : Option Int :=
  match s.dropWhile jsIsWs with
  | [] => none
  | c :: rest =>
    if c = '-' then (parseDigits rest).map (fun n => -(n : Int))
    else if c = '+' then (parseDigits rest).map (fun n => (n : Int))
    else (parseDigits (c :: rest)).map (fun n => (n : Int))

/-! ## `src/utils/imageUrl.ts` -/

/-- Result of `parseItemName`: `{ baseName, variant? }`. -/
structure ParsedName where
  baseName : List Char
  variant : Option (List Char)
deriving DecidableEq, Repr

/-- `parseItemName` from `src/utils/imageUrl.ts`: trim, and if the trimmed
name contains `#`, destructure `trimmed.split('#')` as
`[baseName, variant]` and trim both. -/
def parseItemName (itemName : List Char) : ParsedName :=
  let trimmed := jsTrim itemName
  if '#' ∈ trimmed then
    let segs := jsSplit '#' trimmed
    { baseName := jsTrim (segs.headD []), variant := (segs[1]?).map jsTrim }
  else
    { baseName := trimmed, variant := none }

/-- The literal suffix `"_detail.png"`. -/
def detailSuffix : List Char := ['_', 'd', 'e', 't', 'a', 'i', 'l', '.', 'p', 'n', 'g']

/-- The seven sequential single-character percent-encodings of
`constructImageFilename`, in source order. -/
def encodeSpecialChars (s : List Char) : List Char :=
  repl '&' ['%', '2', '6']
    (repl '?' ['%', '3', 'F']
      (repl '+' ['%', '2', 'B']
        (repl '#' ['%', '2', '3']
          (repl ')' ['%', '2', '9']
            (repl '(' ['%', '2', '8']
              (repl apos ['%', '2', '7'] s))))))

/-- `constructImageFilename` from `src/utils/imageUrl.ts`: trim; on `#`,
destructure the split and (with `includeVariant`, default `false`) either
fold the lowercased variant into a parenthesized suffix or keep only the
base; replace spaces by underscores; percent-encode the seven special
characters; append `"_detail.png"`. -/
def constructImageFilename (itemName : List Char) (includeVariant : Bool := false) :
    List Char :=
  let name0 := jsTrim itemName
  let name1 :=
    if '#' ∈ name0 then
      let segs := jsSplit '#' name0
      let trimmedBase := jsTrim (segs.headD [])
      let trimmedVariant := (segs[1]?).map jsTrim
      match trimmedVariant with
      | some v =>
        if v ≠ [] ∧ includeVariant then
          let lowerVariant := v.map jsToLower
          let hasParens :=
            lowerVariant.head? = some '(' ∧ lowerVariant.getLast? = some ')'
          if hasParens then trimmedBase ++ ' ' :: lowerVariant
          else trimmedBase ++ ' ' :: '(' :: lowerVariant ++ [')']
        else trimmedBase
      | none => trimmedBase
    else name0
  encodeSpecialChars (repl ' ' ['_'] name1) ++ detailSuffix

/-- `constructBaseImageFilename` from `src/utils/imageUrl.ts`: delegates to
`constructImageFilename` with the default `includeVariant`. -/
def constructBaseImageFilename (itemName : List Char) : List Char :=
  constructImageFilename itemName

/-- `ImageUrlOptions` with the defaults applied by `getItemImageUrl`'s
destructuring (`width = 120`, `useThumb = true`). -/
structure ImageUrlOptions where
  width : Nat := 120
  useThumb : Bool := true
deriving DecidableEq, Repr

/-- The constant `WIKI_IMAGE_BASE_URL`. -/
def WIKI_IMAGE_BASE_URL : List Char :=
  String.toList "https://oldschool.runescape.wiki/images"

/-- `getItemImageUrl` from `src/utils/imageUrl.ts`. -/
def getItemImageUrl (itemName : List Char) (options : ImageUrlOptions := {}) :
    List Char :=
  let filename := constructImageFilename itemName
  if options.useThumb then
    WIKI_IMAGE_BASE_URL ++ String.toList "/thumb/" ++ filename ++ '/' ::
      natToChars options.width ++ String.toList "px-" ++ filename
  else
    WIKI_IMAGE_BASE_URL ++ '/' :: filename

/-- Result of `getItemImageUrls`. -/
structure ItemImageUrls where
  variantUrl : List Char
  baseUrl : List Char
deriving DecidableEq, Repr

/-- `getItemImageUrls` from `src/utils/imageUrl.ts`: one URL, returned in
both fields. -/
def getItemImageUrls (itemName : List Char) (options : ImageUrlOptions := {}) :
    ItemImageUrls :=
  let imageUrl := getItemImageUrl itemName options
  { variantUrl := imageUrl, baseUrl := imageUrl }

/-! ## `src/scraper/scrape.ts` -/

/-- A JS `number | number[]` result of `parseItemIds`; `Option.none` inside
models NaN. -/
inductive IdResult where
  | scalar : Option Int → IdResult
  | seq : List (Option Int) → IdResult
deriving DecidableEq, Repr

/-- The ascending run produced by `for (let i = start; i <= end; i++)`:
`[s, s+1, …, e]`, empty when `e < s`. -/
def rangeList (s e : Int) : List Int :=
  (List.range (e + 1 - s).toNat).map (fun k => s + k)

/-- The range arm of `parseItemIds`: split on `-`, parse the first two
trimmed segments, and run the inclusive counting loop; any NaN bound makes
the loop body unreachable. -/
def expandRange (pt : List Char) : List Int :=
  match (jsSplit '-' pt).map (fun seg => jsParseInt (jsTrim seg)) with
  | some s :: some e :: _ => rangeList s e
  | _ => []

/-- The per-part body of the comma branch of `parseItemIds`. -/
def evalPart (part : List Char) : List (Option Int) :=
  let pt := jsTrim part
  if '-' ∈ pt then (expandRange pt).map some
  else [jsParseInt pt]

/-- `parseItemIds` from `src/scraper/scrape.ts`. -/
def parseItemIds (idString : List Char) : IdResult :=
  let trimmed := jsTrim idString
  if ',' ∈ trimmed then
    .seq ((jsSplit ',' trimmed).flatMap evalPart)
  else if '-' ∈ trimmed then
    .seq ((expandRange trimmed).map some)
  else
    .scalar (jsParseInt trimmed)

/-! ## `src/index.ts` (the item catalog) -/

/-- The `id` field of an item: JS `number | number[]`. -/
inductive ItemId where
  | single : Int → ItemId
  | multi : List Int → ItemId
deriving DecidableEq, Repr

/-- `OsrsItem` from `src/types.ts`. -/
structure OsrsItem where
  id : ItemId
  name : List Char
  baseName : List Char
  variant : Option (List Char)
  imageUrl : List Char
deriving DecidableEq, Repr

/-- The matching predicate shared by `getItemById` and `getItemsById`:
`Array.isArray(item.id) ? item.id.includes(id) : item.id === id`. -/
def idMatches (qid : Int) (item : OsrsItem) : Bool :=
  match item.id with
  | .multi l => l.contains qid
  | .single n => n == qid

/-- `getItemById` from `src/index.ts` (dataset passed explicitly). -/
def getItemById (data : List OsrsItem) (qid : Int) : Option OsrsItem :=
  data.find? (idMatches qid)

/-- `getItemsById` from `src/index.ts` (dataset passed explicitly). -/
def getItemsById (data : List OsrsItem) (qid : Int) : List OsrsItem :=
  data.filter (idMatches qid)

/-- `ItemFilter` from `src/types.ts`. -/
structure ItemFilter where
  nameContains : Option (List Char) := none
  hasVariant : Option Bool := none
  limit : Option Int := none
deriving DecidableEq, Repr

/-- JS `hay.includes(needle)`: substring containment. -/
def jsIncludes (hay needle : List Char) : Bool := decide (needle <:+: hay)

/-- JS `String.toLowerCase` over the whole string (ASCII fragment). -/
def toLowerStr (s : List Char) : List Char := s.map jsToLower

/-- `getAllItems` from `src/index.ts` (dataset passed explicitly): apply
the `nameContains` filter, then the `hasVariant` filter, then the positive
`limit` truncation. -/
def getAllItems (data : List OsrsItem) (f : Option ItemFilter) : List OsrsItem :=
  match f with
  | none => data
  | some f =>
    let r1 :=
      match f.nameContains with
      | none => data
      | some q => data.filter fun it => jsIncludes (toLowerStr it.name) (toLowerStr q)
    let r2 :=
      match f.hasVariant with
      | none => r1
      | some b => r1.filter fun it => if b then it.variant.isSome else it.variant.isNone
    match f.limit with
    | some l => if 0 < l then r2.take l.toNat else r2
    | none => r2

/-! ## Positions of the first occurrence of a character -/

/-- The characters strictly before the first occurrence of `c`. -/
def beforeFirst (c : Char) (s : List Char) : List Char :=
  s.takeWhile fun x => x ≠ c

/-- The characters strictly after the first occurrence of `c`. -/
def afterFirst (c : Char) (s : List Char) : List Char :=
  (s.dropWhile fun x => x ≠ c).tail

/-! ## Specification-side definitions (written from the spec's words, to be
compared with the translations above) -/

/-- Single-pass character encoding of §4.3: a space becomes an underscore;
exactly the seven listed characters are percent-encoded; every other
character is untouched. -/
def specEncodeChar (c : Char) : List Char :=
  if c = ' ' then ['_']
  else if c = apos then ['%', '2', '7']
  else if c = '(' then ['%', '2', '8']
  else if c = ')' then ['%', '2', '9']
  else if c = '#' then ['%', '2', '3']
  else if c = '+' then ['%', '2', 'B']
  else if c = '?' then ['%', '3', 'F']
  else if c = '&' then ['%', '2', '6']
  else [c]

/-- The space-then-special-characters encoding stage of
`constructImageFilename`, as the source composes it. -/
def encodePipeline (s : List Char) : List Char :=
  encodeSpecialChars (repl ' ' ['_'] s)

/-- §4.3 detail filename per the spec: the baseName (text before the first
`#`, trimmed), encoded character by character, followed by
`"_detail.png"`. -/
def specDetailFilename (s : List Char) : List Char :=
  (jsTrim (beforeFirst '#' s)).flatMap specEncodeChar ++ detailSuffix

/-- §4.3/§6 thumbnail URL per the spec (bit-exact). -/
def specThumbUrl (s : List Char) (w : Nat) : List Char :=
  String.toList "https://oldschool.runescape.wiki/images/thumb/" ++
    specDetailFilename s ++ '/' :: natToChars w ++ String.toList "px-" ++
    specDetailFilename s

/-- §4.3/§6 full-size URL per the spec (bit-exact). -/
def specFullUrl (s : List Char) : List Char :=
  String.toList "https://oldschool.runescape.wiki/images/" ++ specDetailFilename s

/-- §4.4 id-match relation per the spec: an entry matches a query id when
its id scalar equals it or its id sequence contains it. -/
def SpecMatch (qid : Int) (it : OsrsItem) : Prop :=
  match it.id with
  | .single n => n = qid
  | .multi l => qid ∈ l

instance instDecidableSpecMatch (qid : Int) (it : OsrsItem) :
    Decidable (SpecMatch qid it) :=
  match hid : it.id with
  | .single n => decidable_of_iff (n = qid) (by simp only [SpecMatch, hid])
  | .multi l => decidable_of_iff (qid ∈ l) (by simp only [SpecMatch, hid])

/-- §4.4 filter predicate per the spec: the conjunction of the given
predicates — case-insensitive substring on the name, and variant
present/absent according to `hasVariant`. -/
def specKeepB (f : ItemFilter) (it : OsrsItem) : Bool :=
  (match f.nameContains with
   | none => true
   | some q => decide (toLowerStr q <:+: toLowerStr it.name)) &&
  (match f.hasVariant with
   | none => true
   | some b => if b then it.variant.isSome else it.variant.isNone)

/-- §4.4 `getFiltered` result per the spec: the items satisfying all
predicates, in dataset order, truncated to the first `limit` after all
predicates are applied when a positive limit is given. -/
def specFiltered (data : List OsrsItem) (f : ItemFilter) : List OsrsItem :=
  let kept := data.filter (specKeepB f)
  match f.limit with
  | some l => if 0 < l then kept.take l.toNat else kept
  | none => kept

/-! ## Grammar-level description of id-list inputs (for §4.1) -/

/-- All characters of `w` are JS whitespace. -/
def AllWs (w : List Char) : Prop := ∀ c ∈ w, jsIsWs c = true

/-- All characters of `d` are decimal digits. -/
def AllDigits (d : List Char) : Prop := ∀ c ∈ d, c.isDigit = true

/-- Numeric value of a big-endian digit string (the accumulator fold used
by the digit parser). -/
def charsToNat (d : List Char) : Nat :=
  d.foldl (fun acc c => acc * 10 + digitVal c) 0

/-- One comma-separated part of an id string: a single integer or a
hyphenated range. -/
inductive IdEntry where
  | single : Nat → IdEntry
  | range : Nat → Nat → IdEntry
deriving DecidableEq, Repr

/-- `p` spells the single integer `n` with optional whitespace around it. -/
def RendersSingle (p : List Char) (n : Nat) : Prop :=
  ∃ w1 d w2, AllWs w1 ∧ AllWs w2 ∧ AllDigits d ∧ d ≠ [] ∧ charsToNat d = n ∧
    p = w1 ++ d ++ w2

/-- `p` spells `A-B` with optional whitespace around each number and
around the hyphen. -/
def RendersRange (p : List Char) (a b : Nat) : Prop :=
  ∃ w1 d1 w2 w3 d2 w4, AllWs w1 ∧ AllWs w2 ∧ AllWs w3 ∧ AllWs w4 ∧
    AllDigits d1 ∧ d1 ≠ [] ∧ charsToNat d1 = a ∧
    AllDigits d2 ∧ d2 ≠ [] ∧ charsToNat d2 = b ∧
    p = w1 ++ d1 ++ w2 ++ '-' :: (w3 ++ d2 ++ w4)

/-- `p` spells the entry `e`. -/
def Renders (p : List Char) : IdEntry → Prop
  | .single n => RendersSingle p n
  | .range a b => RendersRange p a b

/-- The id sequence denoted by an entry: a singleton, or the inclusive
ascending range. -/
def entryExpand : IdEntry → List Int
  | .single n => [(n : Int)]
  | .range a b => rangeList a b

/-- Well-formedness per §4.1: ranges are written low-to-high. -/
def entryWf : IdEntry → Prop
  | .single _ => True
  | .range a b => a ≤ b

instance instDecidableAllWs (w : List Char) : Decidable (AllWs w) :=
  inferInstanceAs (Decidable (∀ c ∈ w, jsIsWs c = true))

instance instDecidableAllDigits (d : List Char) : Decidable (AllDigits d) :=
  inferInstanceAs (Decidable (∀ c ∈ d, c.isDigit = true))

instance instDecidableEntryWf (e : IdEntry) : Decidable (entryWf e) :=
  match e with
  | .single _ => inferInstanceAs (Decidable True)
  | .range a b => inferInstanceAs (Decidable (a ≤ b))

/-- Comma-join of the rendered parts. -/
def joinComma : List (List Char) → List Char
  | [] => []
  | [p] => p
  | p :: q :: ps => p ++ ',' :: joinComma (q :: ps)

/-- Expected `parseItemIds` result for a one-part input per the grammar:
a bare integer scalar, or the expanded range sequence. -/
def expectedOne : IdEntry → IdResult
  | .single n => .scalar (some (n : Int))
  | .range a b => .seq ((rangeList a b).map some)

/-- Expected `parseItemIds` result per the grammar of §4.1: the scalar or
range for a comma-free input, and the concatenation of every part's
expansion, in parts-order, for a comma-separated input. -/
def expectedResult : List IdEntry → IdResult
  | [e] => expectedOne e
  | es => .seq ((es.flatMap entryExpand).map some)

end ItemData

namespace ItemData

/-! ## Generic list lemmas -/

theorem dropWhile_append_cons {α : Type} (p : α → Bool) (a : List α) {c : α}
    (hc : p c = false) (b : List α) :
    (a ++ c :: b).dropWhile p = a.dropWhile p ++ c :: b := by
  induction a with
  | nil => simp [List.dropWhile_cons, hc]
  | cons x xs ih =>
    by_cases hx : p x <;> simp [List.dropWhile_cons, hx, ih]

theorem mem_dropWhile_of_neg {α : Type} {p : α → Bool} {c : α} {s : List α}
    (hc : p c = false) (h : c ∈ s) : c ∈ s.dropWhile p := by
  induction s with
  | nil => cases h
  | cons x xs ih =>
    rcases List.mem_cons.mp h with rfl | hmem
    · rw [List.dropWhile_cons_of_neg (by simp [hc])]
      exact List.mem_cons_self _ _
    · by_cases hx : p x
      · rw [List.dropWhile_cons_of_pos hx]
        exact ih hmem
      · rw [List.dropWhile_cons_of_neg hx]
        exact List.mem_cons_of_mem _ hmem

/-! ## Trim lemmas -/

theorem trimLeft_append_cons {c : Char} (hc : jsIsWs c = false) (a b : List Char) :
    trimLeft (a ++ c :: b) = trimLeft a ++ c :: b :=
  dropWhile_append_cons jsIsWs a hc b

theorem trimRight_append_cons {c : Char} (hc : jsIsWs c = false) (a b : List Char) :
    trimRight (a ++ c :: b) = a ++ c :: trimRight b := by
  unfold trimRight
  rw [show (a ++ c :: b).reverse = b.reverse ++ c :: a.reverse by simp]
  rw [dropWhile_append_cons jsIsWs b.reverse hc a.reverse]
  simp

theorem jsTrim_append_cons {c : Char} (hc : jsIsWs c = false) (a b : List Char) :
    jsTrim (a ++ c :: b) = trimLeft a ++ c :: trimRight b := by
  unfold jsTrim
  rw [trimLeft_append_cons hc, trimRight_append_cons hc]

theorem trimLeft_trimLeft (s : List Char) : trimLeft (trimLeft s) = trimLeft s := by
  simp [trimLeft, List.dropWhile_idempotent]

theorem trimRight_eq_rdropWhile (s : List Char) :
    trimRight s = List.rdropWhile jsIsWs s := rfl

theorem trimRight_trimRight (s : List Char) : trimRight (trimRight s) = trimRight s := by
  simp [trimRight_eq_rdropWhile, List.rdropWhile_idempotent]

theorem trimRight_cons (c : Char) (t : List Char) :
    trimRight (c :: t) =
      if trimRight t = [] then (if jsIsWs c then [] else [c])
      else c :: trimRight t := by
  unfold trimRight
  rw [show (c :: t).reverse = t.reverse ++ [c] by simp]
  rw [List.dropWhile_append]
  by_cases h : t.reverse.dropWhile jsIsWs = []
  · by_cases hc : jsIsWs c <;> simp [h, List.dropWhile_cons, hc]
  · simp only [List.isEmpty_iff, h, if_false]
    have h2 : (t.reverse.dropWhile jsIsWs).reverse ≠ [] := by
      simpa using h
    simp [h2]

theorem trimLeft_eq_nil_iff {s : List Char} :
    trimLeft s = [] ↔ ∀ x ∈ s, jsIsWs x := by
  unfold trimLeft
  induction s with
  | nil => simp
  | cons c t ih =>
    by_cases hc : jsIsWs c <;> simp [List.dropWhile_cons, hc, ih]

theorem trimRight_eq_nil_iff {s : List Char} :
    trimRight s = [] ↔ ∀ x ∈ s, jsIsWs x := by
  rw [trimRight_eq_rdropWhile, List.rdropWhile_eq_nil_iff]

theorem trimLeft_trimRight_comm (s : List Char) :
    trimLeft (trimRight s) = trimRight (trimLeft s) := by
  induction s with
  | nil => rfl
  | cons c t ih =>
    by_cases hc : jsIsWs c
    · have hl : trimLeft (c :: t) = trimLeft t := by
        simp [trimLeft, List.dropWhile_cons, hc]
      rw [hl, trimRight_cons]
      by_cases ht : trimRight t = []
      · have htl : trimLeft t = [] :=
          trimLeft_eq_nil_iff.mpr (trimRight_eq_nil_iff.mp ht)
        rw [if_pos ht, if_pos hc, htl]
        rfl
      · have hstep : trimLeft (c :: trimRight t) = trimLeft (trimRight t) := by
          simp [trimLeft, List.dropWhile_cons, hc]
        rw [if_neg ht, hstep, ih]
    · have hl : trimLeft (c :: t) = c :: t := by
        simp [trimLeft, List.dropWhile_cons, hc]
      rw [hl, trimRight_cons]
      by_cases ht : trimRight t = []
      · rw [if_pos ht, if_neg hc]
        have htl : trimLeft [c] = [c] := by simp [trimLeft, List.dropWhile_cons, hc]
        rw [htl]
      · rw [if_neg ht]
        have hstep : trimLeft (c :: trimRight t) = c :: trimRight t := by
          simp [trimLeft, List.dropWhile_cons, hc]
        rw [hstep]

theorem jsTrim_trimLeft (s : List Char) : jsTrim (trimLeft s) = jsTrim s := by
  unfold jsTrim
  rw [trimLeft_trimLeft]

theorem jsTrim_trimRight (s : List Char) : jsTrim (trimRight s) = jsTrim s := by
  unfold jsTrim
  rw [trimLeft_trimRight_comm, trimRight_trimRight]

theorem jsTrim_jsTrim (s : List Char) : jsTrim (jsTrim s) = jsTrim s := by
  unfold jsTrim
  rw [trimLeft_trimRight_comm, trimLeft_trimLeft, trimRight_trimRight]

theorem mem_of_mem_trimLeft {c : Char} {s : List Char} (h : c ∈ trimLeft s) : c ∈ s :=
  (List.dropWhile_sublist jsIsWs).subset h

theorem mem_of_mem_trimRight {c : Char} {s : List Char} (h : c ∈ trimRight s) : c ∈ s := by
  rw [trimRight_eq_rdropWhile] at h
  exact List.rdropWhile_prefix jsIsWs s |>.sublist.subset h

theorem mem_of_mem_jsTrim {c : Char} {s : List Char} (h : c ∈ jsTrim s) : c ∈ s :=
  mem_of_mem_trimLeft (mem_of_mem_trimRight h)

theorem mem_trimLeft_of_neg {c : Char} {s : List Char} (hc : jsIsWs c = false)
    (h : c ∈ s) : c ∈ trimLeft s :=
  mem_dropWhile_of_neg hc h

theorem mem_trimRight_of_neg {c : Char} {s : List Char} (hc : jsIsWs c = false)
    (h : c ∈ s) : c ∈ trimRight s := by
  unfold trimRight
  rw [List.mem_reverse]
  exact mem_dropWhile_of_neg hc (List.mem_reverse.mpr h)

theorem mem_jsTrim_of_neg {c : Char} {s : List Char} (hc : jsIsWs c = false)
    (h : c ∈ s) : c ∈ jsTrim s :=
  mem_trimRight_of_neg hc (mem_trimLeft_of_neg hc h)

/-! ## Split lemmas -/

theorem jsSplit_ne_nil (sep : Char) (s : List Char) : jsSplit sep s ≠ [] := by
  cases s with
  | nil => simp [jsSplit]
  | cons c rest =>
    by_cases hc : c = sep
    · simp [jsSplit, hc]
    · simp only [jsSplit, hc, if_false]
      cases jsSplit sep rest <;> simp

theorem jsSplit_not_mem {sep : Char} {s : List Char} (h : sep ∉ s) :
    jsSplit sep s = [s] := by
  induction s with
  | nil => rfl
  | cons c rest ih =>
    have hc : ¬c = sep := fun hcs => h (hcs ▸ List.mem_cons_self c rest)
    have ht : sep ∉ rest := fun hm => h (List.mem_cons_of_mem c hm)
    simp [jsSplit, hc, ih ht]

theorem jsSplit_append_cons {sep : Char} {a : List Char} (h : sep ∉ a) (b : List Char) :
    jsSplit sep (a ++ sep :: b) = a :: jsSplit sep b := by
  induction a with
  | nil => simp [jsSplit]
  | cons x xs ih =>
    have hx : ¬x = sep := fun hxs => h (hxs ▸ List.mem_cons_self x xs)
    have ht : sep ∉ xs := fun hm => h (List.mem_cons_of_mem x hm)
    have ihh : jsSplit sep (xs.append (sep :: b)) = xs :: jsSplit sep b := ih ht
    simp only [List.cons_append, jsSplit, hx, if_false]
    rw [ihh]

theorem jsSplit_headD (sep : Char) (s : List Char) :
    (jsSplit sep s).headD [] = beforeFirst sep s := by
  induction s with
  | nil => rfl
  | cons c rest ih =>
    by_cases hc : c = sep
    · subst hc
      simp [jsSplit, beforeFirst, List.takeWhile_cons]
    · rcases hsp : jsSplit sep rest with _ | ⟨shd, stl⟩
      · exact absurd hsp (jsSplit_ne_nil sep rest)
      · have ihh : shd = beforeFirst sep rest := by
          rw [hsp] at ih
          simpa using ih
        simp only [jsSplit, hc, if_false, hsp, List.headD_cons]
        simp [beforeFirst, List.takeWhile_cons, hc, ihh]

/-! ## First-occurrence decomposition -/

theorem not_mem_beforeFirst (c : Char) (s : List Char) : c ∉ beforeFirst c s := by
  intro hmem
  have := List.mem_takeWhile_imp hmem
  simp at this

theorem dropWhile_ne_of_mem {c : Char} {s : List Char} (h : c ∈ s) :
    (s.dropWhile fun x => x ≠ c) = c :: afterFirst c s := by
  induction s with
  | nil => cases h
  | cons x xs ih =>
    by_cases hx : x = c
    · subst hx
      simp [afterFirst, List.dropWhile_cons]
    · have hmem : c ∈ xs := by
        rcases List.mem_cons.mp h with h1 | h1
        · exact absurd h1.symm hx
        · exact h1
      have hpred : (fun x => decide (x ≠ c)) x = true := by simp [hx]
      simp only [afterFirst, List.dropWhile_cons, hpred, if_true]
      exact ih hmem

theorem first_decomp {c : Char} {s : List Char} (h : c ∈ s) :
    s = beforeFirst c s ++ c :: afterFirst c s := by
  conv_lhs => rw [← List.takeWhile_append_dropWhile (fun x => x ≠ c) s]
  rw [dropWhile_ne_of_mem h]
  rfl

theorem beforeFirst_append_cons {c : Char} {a : List Char} (h : c ∉ a) (b : List Char) :
    beforeFirst c (a ++ c :: b) = a := by
  unfold beforeFirst
  rw [List.takeWhile_append_of_pos (by intro x hx; simp; exact fun e => h (e ▸ hx))]
  rw [List.takeWhile_cons_of_neg (by simp)]
  simp

theorem afterFirst_append_cons {c : Char} {a : List Char} (h : c ∉ a) (b : List Char) :
    afterFirst c (a ++ c :: b) = b := by
  unfold afterFirst
  rw [List.dropWhile_append_of_pos (by intro x hx; simp; exact fun e => h (e ▸ hx))]
  rw [List.dropWhile_cons_of_neg (by simp)]
  rfl

/-! ## Characterization of `parseItemName` -/

theorem getElem?_one_cons {α : Type} (a : α) {l : List α} (d : α) (hl : l ≠ []) :
    (a :: l)[1]? = some (l.headD d) := by
  cases l with
  | nil => exact absurd rfl hl
  | cons b t => simp

theorem parseItemName_of_hash {s : List Char} (h : '#' ∈ s) :
    parseItemName s =
      { baseName := jsTrim (beforeFirst '#' (jsTrim s)),
        variant := some (jsTrim (beforeFirst '#' (afterFirst '#' (jsTrim s)))) } := by
  have hts : '#' ∈ jsTrim s := mem_jsTrim_of_neg (by decide) h
  have hsplit : jsSplit '#' (jsTrim s) =
      beforeFirst '#' (jsTrim s) :: jsSplit '#' (afterFirst '#' (jsTrim s)) := by
    conv_lhs => rw [first_decomp hts]
    exact jsSplit_append_cons (not_mem_beforeFirst _ _) _
  have h2 : (beforeFirst '#' (jsTrim s) :: jsSplit '#' (afterFirst '#' (jsTrim s)))[1]? =
      some ((jsSplit '#' (afterFirst '#' (jsTrim s))).headD []) :=
    getElem?_one_cons _ [] (jsSplit_ne_nil _ _)
  simp only [parseItemName]
  rw [if_pos hts, hsplit, List.headD_cons, h2, jsSplit_headD]
  simp

theorem parseItemName_no_hash {s : List Char} (h : '#' ∉ s) :
    parseItemName s = { baseName := jsTrim s, variant := none } := by
  unfold parseItemName
  rw [if_neg (fun hm => h (mem_of_mem_jsTrim hm))]

/-! ## Claims C1 and C2: `parseItemName` -/

/-- C1, counterexample: on `"a#b#c"`, `parseItemName` does NOT make the
variant everything after the first `#` (which would be `"b#c"`); its
destructuring of `split('#')` keeps only the segment between the first and
second `#`, namely `"b"`. -/
theorem parseItemName_c1_counterexample :
    (parseItemName ['a', '#', 'b', '#', 'c']).variant = some ['b'] ∧
    (parseItemName ['a', '#', 'b', '#', 'c']).variant ≠ some ['b', '#', 'c'] := by
  decide

/-- C1 (amended): for a raw name containing at least two `#` characters,
`parseItemName` takes the trimmed text before the first `#` as `baseName`
and the trimmed text strictly between the first and second `#` as the
variant; everything after the second `#` is dropped. -/
theorem parseItemName_c1_amended (x y z : List Char)
    (hx : '#' ∉ x) (hy : '#' ∉ y) :
    parseItemName (x ++ '#' :: (y ++ '#' :: z)) =
      { baseName := jsTrim x, variant := some (jsTrim y) } := by
  have h : '#' ∈ x ++ '#' :: (y ++ '#' :: z) := by simp
  rw [parseItemName_of_hash h]
  rw [jsTrim_append_cons (by decide), trimRight_append_cons (by decide)]
  have hxl : '#' ∉ trimLeft x := fun hm => hx (mem_of_mem_trimLeft hm)
  rw [beforeFirst_append_cons hxl, afterFirst_append_cons hxl,
    beforeFirst_append_cons hy, jsTrim_trimLeft]

/-- Witness for C1 (amended) at `x = "a"`, `y = "b"`, `z = "c"`. -/
theorem parseItemName_c1_amended_witness :
    parseItemName ['a', '#', 'b', '#', 'c'] =
      { baseName := ['a'], variant := some ['b'] } :=
  (parseItemName_c1_amended ['a'] ['b'] ['c'] (by decide) (by decide)).trans
    (by decide)

/-- C2, counterexample: on `"abc#"` (a name ending in `#`, so no text
follows the delimiter) `parseItemName` still returns a variant field — the
empty string — instead of leaving the variant absent. -/
theorem parseItemName_c2_counterexample :
    (parseItemName ['a', 'b', 'c', '#']).variant = some [] ∧
    (parseItemName ['a', 'b', 'c', '#']).variant ≠ none := by
  decide

/-- C2 (amended): for every raw name, if the name contains no `#` the
variant is absent and `baseName` is the whole input trimmed; if the name
contains `#`, the variant field is always present (even when no text
follows the delimiter, in which case it is the empty string): it equals
the trimmed text after the first `#` and before any second `#`. -/
theorem parseItemName_c2_amended (s : List Char) :
    ('#' ∉ s → parseItemName s = { baseName := jsTrim s, variant := none }) ∧
    ('#' ∈ s → parseItemName s =
      { baseName := jsTrim (beforeFirst '#' (jsTrim s)),
        variant := some (jsTrim (beforeFirst '#' (afterFirst '#' (jsTrim s)))) }) :=
  ⟨fun h => parseItemName_no_hash h, fun h => parseItemName_of_hash h⟩

/-- Witness for C2 (amended): both branches at concrete inputs — `"ab"`
(no `#`) keeps the variant absent, and `"a#"` (trailing `#`) yields the
empty-string variant. -/
theorem parseItemName_c2_amended_witness :
    parseItemName ['a', 'b'] = { baseName := ['a', 'b'], variant := none } ∧
    parseItemName ['a', '#'] = { baseName := ['a'], variant := some [] } :=
  ⟨((parseItemName_c2_amended ['a', 'b']).1 (by decide)).trans (by decide),
   ((parseItemName_c2_amended ['a', '#']).2 (by decide)).trans (by decide)⟩

/-! ## The encoding pipeline -/

theorem encodePipeline_append (a b : List Char) :
    encodePipeline (a ++ b) = encodePipeline a ++ encodePipeline b := by
  simp [encodePipeline, encodeSpecialChars, repl, List.flatMap_append]

theorem encodePipeline_char (c : Char) :
    encodePipeline [c] = specEncodeChar c := by
  by_cases h1 : c = ' '
  · subst h1; decide
  by_cases h2 : c = apos
  · subst h2; decide
  by_cases h3 : c = '('
  · subst h3; decide
  by_cases h4 : c = ')'
  · subst h4; decide
  by_cases h5 : c = '#'
  · subst h5; decide
  by_cases h6 : c = '+'
  · subst h6; decide
  by_cases h7 : c = '?'
  · subst h7; decide
  by_cases h8 : c = '&'
  · subst h8; decide
  simp [encodePipeline, encodeSpecialChars, repl, specEncodeChar,
    h1, h2, h3, h4, h5, h6, h7, h8]

theorem encodePipeline_eq_flatMap (s : List Char) :
    encodePipeline s = s.flatMap specEncodeChar := by
  induction s with
  | nil => rfl
  | cons c t ih =>
    have hsplit2 : c :: t = [c] ++ t := rfl
    rw [hsplit2, encodePipeline_append, ih, encodePipeline_char]
    simp

theorem beforeFirst_of_not_mem {c : Char} {s : List Char} (h : c ∉ s) :
    beforeFirst c s = s := by
  unfold beforeFirst
  induction s with
  | nil => rfl
  | cons x xs ih =>
    have hx : ¬x = c := fun hxc => h (hxc ▸ List.mem_cons_self x xs)
    have ht : c ∉ xs := fun hm => h (List.mem_cons_of_mem x hm)
    rw [List.takeWhile_cons_of_pos (by simp [hx]), ih ht]

theorem jsTrim_beforeFirst_core {c : Char} (hc : jsIsWs c = false) {a : List Char}
    (ha : c ∉ a) (b : List Char) :
    jsTrim (beforeFirst c (jsTrim (a ++ c :: b))) = jsTrim a := by
  rw [jsTrim_append_cons hc]
  rw [beforeFirst_append_cons (fun hm => ha (mem_of_mem_trimLeft hm))]
  exact jsTrim_trimLeft a

theorem constructImageFilename_spec (s : List Char) :
    constructImageFilename s = specDetailFilename s := by
  unfold specDetailFilename
  by_cases h : '#' ∈ jsTrim s
  · have hs : '#' ∈ s := mem_of_mem_jsTrim h
    have hsplit : jsSplit '#' (jsTrim s) =
        beforeFirst '#' (jsTrim s) :: jsSplit '#' (afterFirst '#' (jsTrim s)) := by
      conv_lhs => rw [first_decomp h]
      exact jsSplit_append_cons (not_mem_beforeFirst _ _) _
    have h2 : (beforeFirst '#' (jsTrim s) :: jsSplit '#' (afterFirst '#' (jsTrim s)))[1]? =
        some ((jsSplit '#' (afterFirst '#' (jsTrim s))).headD []) :=
      getElem?_one_cons _ [] (jsSplit_ne_nil _ _)
    have hbase : jsTrim (beforeFirst '#' (jsTrim s)) = jsTrim (beforeFirst '#' s) := by
      conv_lhs => rw [first_decomp hs]
      rw [jsTrim_beforeFirst_core (by decide) (not_mem_beforeFirst _ _)]
    simp only [constructImageFilename]
    rw [if_pos h, hsplit, List.headD_cons, h2]
    simp only [Option.map_some']
    rw [show ∀ v : List Char, (if v ≠ [] ∧ (false : Bool) then
        (if (v.map jsToLower).head? = some '(' ∧ (v.map jsToLower).getLast? = some ')'
         then jsTrim (beforeFirst '#' (jsTrim s)) ++ ' ' :: v.map jsToLower
         else jsTrim (beforeFirst '#' (jsTrim s)) ++ ' ' :: '(' :: v.map jsToLower ++ [')'])
        else jsTrim (beforeFirst '#' (jsTrim s))) = jsTrim (beforeFirst '#' (jsTrim s))
      from fun v => by simp]
    rw [show encodeSpecialChars (repl ' ' ['_'] (jsTrim (beforeFirst '#' (jsTrim s)))) =
        encodePipeline (jsTrim (beforeFirst '#' (jsTrim s))) from rfl]
    rw [encodePipeline_eq_flatMap, hbase]
  · have hs : '#' ∉ s := fun hm => h (mem_jsTrim_of_neg (by decide) hm)
    simp only [constructImageFilename]
    rw [if_neg h]
    rw [show encodeSpecialChars (repl ' ' ['_'] (jsTrim s)) =
        encodePipeline (jsTrim s) from rfl]
    rw [encodePipeline_eq_flatMap, beforeFirst_of_not_mem hs]

/-! ## Claims C5, C6, C7: filename and URL construction -/

/-- C5: with its default options, `constructImageFilename` returns exactly
the trimmed baseName (variant after `#` discarded), spaces replaced by
underscores, exactly the seven special characters percent-encoded (each
independently, no double-encoding, nothing else altered), followed by the
literal suffix `"_detail.png"` — i.e. the single-pass spec encoding. -/
theorem constructImageFilename_c5 (s : List Char) :
    constructImageFilename s = specDetailFilename s :=
  constructImageFilename_spec s

/-- C6: `getItemImageUrl` returns the bit-exact thumbnail URL
`https://oldschool.runescape.wiki/images/thumb/{filename}/{width}px-{filename}`
when `useThumb` is true and
`https://oldschool.runescape.wiki/images/{filename}` when it is false,
where `{filename}` is the §4.3 detail filename; the defaults are
`width = 120` and `useThumb = true`. -/
theorem getItemImageUrl_c6 :
    (∀ (s : List Char) (o : ImageUrlOptions),
      getItemImageUrl s o =
        if o.useThumb then specThumbUrl s o.width else specFullUrl s) ∧
    ({} : ImageUrlOptions).width = 120 ∧ ({} : ImageUrlOptions).useThumb = true := by
  refine ⟨fun s o => ?_, rfl, rfl⟩
  unfold getItemImageUrl specThumbUrl specFullUrl
  rw [constructImageFilename_spec]
  by_cases h : o.useThumb
  · rw [if_pos h, if_pos h]
    have hpre : WIKI_IMAGE_BASE_URL ++ String.toList "/thumb/" =
        String.toList "https://oldschool.runescape.wiki/images/thumb/" := by decide
    rw [← hpre]
  · rw [if_neg h, if_neg h]
    have hpre : WIKI_IMAGE_BASE_URL ++ ['/'] =
        String.toList "https://oldschool.runescape.wiki/images/" := by decide
    rw [← hpre]
    simp

/-- C7: the variant-aware and base URL builders coincide —
`getItemImageUrls` returns `variantUrl` equal to `baseUrl`, and
`constructBaseImageFilename` returns exactly `constructImageFilename` of
the same name (both with default options). -/
theorem getItemImageUrls_c7 :
    (∀ (s : List Char) (o : ImageUrlOptions),
      (getItemImageUrls s o).variantUrl = (getItemImageUrls s o).baseUrl) ∧
    (∀ s : List Char, constructBaseImageFilename s = constructImageFilename s) :=
  ⟨fun _ _ => rfl, fun _ => rfl⟩

/-! ## Claims C8 and C9: the item catalog -/

theorem idMatches_eq_decide_specMatch (qid : Int) (it : OsrsItem) :
    idMatches qid it = decide (SpecMatch qid it) := by
  rw [Bool.eq_iff_iff, decide_eq_true_eq]
  rcases it with ⟨id, name, baseName, variant, imageUrl⟩
  cases id with
  | single n =>
    show (n == qid) = true ↔ n = qid
    exact beq_iff_eq
  | multi l =>
    show List.elem qid l = true ↔ qid ∈ l
    exact List.elem_iff

theorem find?_eq_head?_filter {α : Type} (p : α → Bool) (l : List α) :
    l.find? p = (l.filter p).head? := by
  induction l with
  | nil => rfl
  | cons x xs ih =>
    by_cases hx : p x
    · rw [List.find?_cons_of_pos _ hx, List.filter_cons_of_pos hx, List.head?_cons]
    · rw [List.find?_cons_of_neg _ hx, List.filter_cons_of_neg hx, ih]

/-- C8: `getItemsById` returns exactly the items, in dataset order, whose
id scalar equals the query id or whose id sequence contains it;
`getItemById` is the first of these (the head of that list), and is
not-found (`none`) exactly when no item's scalar or sequence matches. -/
theorem getItemById_c8 (data : List OsrsItem) (qid : Int) :
    getItemsById data qid = data.filter (fun it => decide (SpecMatch qid it)) ∧
    getItemById data qid = (getItemsById data qid).head? ∧
    (getItemById data qid = none ↔ ∀ it ∈ data, ¬ SpecMatch qid it) := by
  refine ⟨?_, ?_, ?_⟩
  · unfold getItemsById
    exact List.filter_congr fun it _ => idMatches_eq_decide_specMatch qid it
  · unfold getItemById getItemsById
    exact find?_eq_head?_filter (idMatches qid) data
  · unfold getItemById
    rw [List.find?_eq_none]
    constructor
    · intro h it hmem hspec
      have := h it hmem
      rw [idMatches_eq_decide_specMatch] at this
      simp [hspec] at this
    · intro h it hmem
      rw [idMatches_eq_decide_specMatch]
      simp [h it hmem]

theorem getAllItems_some_spec (data : List OsrsItem) (nc : Option (List Char))
    (hv : Option Bool) (lim : Option Int) :
    getAllItems data (some ⟨nc, hv, lim⟩) = specFiltered data ⟨nc, hv, lim⟩ := by
  rcases nc with _ | q <;> rcases hv with _ | b <;>
    simp only [getAllItems, specFiltered, specKeepB, jsIncludes]
  · have hc : List.filter
        (specKeepB { nameContains := none, hasVariant := none, limit := lim }) data =
        List.filter (fun _ => true) data :=
      List.filter_congr fun it _ => by simp [specKeepB]
    rw [hc, List.filter_true]
  · have hc : List.filter
        (specKeepB { nameContains := none, hasVariant := some b, limit := lim }) data =
        List.filter
          (fun it => if b = true then it.variant.isSome else it.variant.isNone) data :=
      List.filter_congr fun it _ => by simp [specKeepB]
    rw [hc]
  · have hc : List.filter
        (specKeepB { nameContains := some q, hasVariant := none, limit := lim }) data =
        List.filter (fun it => decide (toLowerStr q <:+: toLowerStr it.name)) data :=
      List.filter_congr fun it _ => by simp [specKeepB]
    rw [hc]
  · have hff : List.filter
        (fun it => if b = true then it.variant.isSome else it.variant.isNone)
        (List.filter (fun it => decide (toLowerStr q <:+: toLowerStr it.name)) data) =
        List.filter
          (fun it => (if b = true then it.variant.isSome else it.variant.isNone) &&
            decide (toLowerStr q <:+: toLowerStr it.name)) data :=
      List.filter_filter _ data
    have hc : List.filter
        (specKeepB { nameContains := some q, hasVariant := some b, limit := lim }) data =
        List.filter
          (fun it => (if b = true then it.variant.isSome else it.variant.isNone) &&
            decide (toLowerStr q <:+: toLowerStr it.name)) data :=
      List.filter_congr fun it _ => by
        simp only [specKeepB]
        rw [Bool.and_comm]
    rw [hff, hc]

/-- C9: `getAllItems` with no filter returns the dataset; with a filter it
returns exactly the items satisfying the conjunction of the given
predicates (case-insensitive name substring, variant present/absent), in
dataset order, truncated to the first `limit` results after all predicates
are applied when a positive limit is given. -/
theorem getAllItems_c9 (data : List OsrsItem) (f : ItemFilter) :
    getAllItems data none = data ∧
    getAllItems data (some f) = specFiltered data f := by
  refine ⟨rfl, ?_⟩
  obtain ⟨nc, hv, lim⟩ := f
  exact getAllItems_some_spec data nc hv lim

/-! ## Character classes of rendered id strings -/

theorem digit_not_ws {c : Char} (h : c.isDigit = true) : jsIsWs c = false := by
  by_cases h1 : c = ' '
  · subst h1; exact absurd h (by decide)
  by_cases h2 : c = '\t'
  · subst h2; exact absurd h (by decide)
  by_cases h3 : c = '\n'
  · subst h3; exact absurd h (by decide)
  by_cases h4 : c = '\r'
  · subst h4; exact absurd h (by decide)
  by_cases h5 : c = '\x0b'
  · subst h5; exact absurd h (by decide)
  by_cases h6 : c = '\x0c'
  · subst h6; exact absurd h (by decide)
  simp [jsIsWs, h1, h2, h3, h4, h5, h6]

theorem not_mem_of_allWs {w : List Char} {c : Char} (hw : AllWs w)
    (hc : jsIsWs c = false) : c ∉ w := fun hm => by
  rw [hw c hm] at hc
  cases hc

theorem not_mem_of_allDigits {d : List Char} {c : Char} (hd : AllDigits d)
    (hc : c.isDigit = false) : c ∉ d := fun hm => by
  rw [hd c hm] at hc
  cases hc

theorem allDigits_not_ws {d : List Char} (hd : AllDigits d) :
    ∀ c ∈ d, jsIsWs c = false := fun c hm => digit_not_ws (hd c hm)

/-! ## Trimming around tokens -/

theorem trimLeft_allWs_append {w : List Char} (hw : AllWs w) (m : List Char) :
    trimLeft (w ++ m) = trimLeft m := by
  induction w with
  | nil => rfl
  | cons x xs ih =>
    have hx : jsIsWs x = true := hw x (List.mem_cons_self x xs)
    rw [List.cons_append]
    unfold trimLeft
    rw [List.dropWhile_cons_of_pos hx]
    exact ih fun c hm => hw c (List.mem_cons_of_mem x hm)

theorem trimRight_append_allWs {w : List Char} (hw : AllWs w) (m : List Char) :
    trimRight (m ++ w) = trimRight m := by
  unfold trimRight
  rw [List.reverse_append]
  rw [show (w.reverse ++ m.reverse).dropWhile jsIsWs = m.reverse.dropWhile jsIsWs from
    trimLeft_allWs_append (fun c hm => hw c (List.mem_reverse.mp hm)) m.reverse]

theorem trimLeft_append_left_nonws {d Y : List Char}
    (hd : ∀ c ∈ d, jsIsWs c = false) (hne : d ≠ []) :
    trimLeft (d ++ Y) = d ++ Y := by
  rcases d with _ | ⟨c, t⟩
  · exact absurd rfl hne
  · rw [List.cons_append]
    unfold trimLeft
    rw [List.dropWhile_cons_of_neg (by simp [hd c (List.mem_cons_self c t)])]

theorem trimRight_append_right_nonws {Y d : List Char}
    (hd : ∀ c ∈ d, jsIsWs c = false) (hne : d ≠ []) :
    trimRight (Y ++ d) = Y ++ d := by
  unfold trimRight
  rw [List.reverse_append]
  rcases hrev : d.reverse with _ | ⟨c, t⟩
  · exact absurd (by simpa using congrArg List.reverse hrev) hne
  · have hc : jsIsWs c = false := by
      refine hd c ?_
      rw [← List.mem_reverse, hrev]
      exact List.mem_cons_self c t
    rw [List.cons_append, List.dropWhile_cons_of_neg (by simp [hc]),
      ← List.cons_append, ← hrev, ← List.reverse_append]
    simp

theorem jsTrim_alt (s : List Char) : jsTrim s = trimLeft (trimRight s) :=
  (trimLeft_trimRight_comm s).symm

theorem jsTrim_ws_left {w : List Char} (hw : AllWs w) (x : List Char) :
    jsTrim (w ++ x) = jsTrim x := by
  unfold jsTrim
  rw [trimLeft_allWs_append hw]

theorem jsTrim_ws_suffix {w : List Char} (hw : AllWs w) (x : List Char) :
    jsTrim (x ++ w) = jsTrim x := by
  rw [jsTrim_alt, trimRight_append_allWs hw, ← jsTrim_alt]

theorem jsTrim_eq_self_of_no_ws {s : List Char}
    (h : ∀ c ∈ s, jsIsWs c = false) : jsTrim s = s := by
  rcases hs : s with _ | ⟨c, t⟩
  · rfl
  · unfold jsTrim
    have h1 : trimLeft (c :: t) = c :: t := by
      unfold trimLeft
      rw [List.dropWhile_cons_of_neg (by simp [h c (by rw [hs]; exact List.mem_cons_self c t)])]
    rw [h1]
    have h2 : trimRight (c :: t) = [] ++ c :: t := by
      rw [List.nil_append]
      exact trimRight_append_right_nonws (Y := []) (by intro x hm; exact h x (hs ▸ hm))
        (by simp)
    simpa using h2

theorem jsTrim_token {w1 d w2 : List Char} (hw1 : AllWs w1) (hw2 : AllWs w2)
    (hd : AllDigits d) : jsTrim (w1 ++ d ++ w2) = d := by
  rw [jsTrim_ws_suffix hw2, jsTrim_ws_left hw1,
    jsTrim_eq_self_of_no_ws (allDigits_not_ws hd)]

/-! ## Parsing rendered numbers -/

theorem takeWhile_digits_eq_self {d : List Char} (hd : AllDigits d) :
    d.takeWhile Char.isDigit = d := by
  induction d with
  | nil => rfl
  | cons c t ih =>
    rw [List.takeWhile_cons_of_pos (hd c (List.mem_cons_self c t))]
    rw [ih fun x hm => hd x (List.mem_cons_of_mem c hm)]

theorem parseDigits_renders {d : List Char} (hd : AllDigits d) (hne : d ≠ []) :
    parseDigits d = some (charsToNat d) := by
  simp only [parseDigits]
  rw [takeWhile_digits_eq_self hd, if_neg hne]
  rfl

theorem jsParseInt_digits {d : List Char} (hd : AllDigits d) (hne : d ≠ []) :
    jsParseInt d = some ((charsToNat d : Int)) := by
  rcases d with _ | ⟨c, t⟩
  · exact absurd rfl hne
  · have hc : c.isDigit = true := hd c (List.mem_cons_self c t)
    have h1 : ¬c = '-' := by rintro rfl; exact absurd hc (by decide)
    have h2 : ¬c = '+' := by rintro rfl; exact absurd hc (by decide)
    unfold jsParseInt
    rw [List.dropWhile_cons_of_neg (by simp [digit_not_ws hc])]
    simp only [h1, h2, if_false]
    rw [parseDigits_renders hd hne]
    rfl

/-! ## Evaluating rendered parts -/

theorem jsTrim_range_part {w1 d1 w2 w3 d2 w4 : List Char}
    (hw1 : AllWs w1) (_hw2 : AllWs w2) (_hw3 : AllWs w3) (hw4 : AllWs w4)
    (hd1 : AllDigits d1) (hne1 : d1 ≠ []) (hd2 : AllDigits d2) (hne2 : d2 ≠ []) :
    jsTrim (w1 ++ d1 ++ w2 ++ '-' :: (w3 ++ d2 ++ w4)) =
      d1 ++ w2 ++ '-' :: (w3 ++ d2) := by
  rw [jsTrim_append_cons (by decide)]
  rw [trimRight_append_allWs hw4]
  rw [trimRight_append_right_nonws (allDigits_not_ws hd2) hne2]
  rw [List.append_assoc w1 d1 w2]
  rw [trimLeft_allWs_append hw1]
  rw [trimLeft_append_left_nonws (allDigits_not_ws hd1) hne1]

theorem expandRange_renders {d1 w2 w3 d2 : List Char} (hw2 : AllWs w2) (hw3 : AllWs w3)
    (hd1 : AllDigits d1) (hne1 : d1 ≠ []) (hd2 : AllDigits d2) (hne2 : d2 ≠ []) :
    expandRange (d1 ++ w2 ++ '-' :: (w3 ++ d2)) =
      rangeList (charsToNat d1) (charsToNat d2) := by
  unfold expandRange
  have hnm1 : '-' ∉ d1 ++ w2 := by
    intro hm
    rcases List.mem_append.mp hm with h | h
    · exact absurd (hd1 _ h) (by decide)
    · exact absurd (hw2 _ h) (by decide)
  have hnm2 : '-' ∉ w3 ++ d2 := by
    intro hm
    rcases List.mem_append.mp hm with h | h
    · exact absurd (hw3 _ h) (by decide)
    · exact absurd (hd2 _ h) (by decide)
  rw [jsSplit_append_cons hnm1, jsSplit_not_mem hnm2]
  simp only [List.map_cons, List.map_nil]
  rw [jsTrim_ws_suffix hw2, jsTrim_eq_self_of_no_ws (allDigits_not_ws hd1)]
  rw [jsTrim_ws_left hw3, jsTrim_eq_self_of_no_ws (allDigits_not_ws hd2)]
  rw [jsParseInt_digits hd1 hne1, jsParseInt_digits hd2 hne2]

theorem evalPart_of_rendersSingle {p : List Char} {n : Nat} (hr : RendersSingle p n) :
    evalPart p = [some (n : Int)] := by
  obtain ⟨w1, d, w2, hw1, hw2, hd, hne, hval, rfl⟩ := hr
  unfold evalPart
  rw [jsTrim_token hw1 hw2 hd]
  rw [if_neg (not_mem_of_allDigits hd (by decide))]
  rw [jsParseInt_digits hd hne, hval]

theorem evalPart_of_rendersRange {p : List Char} {a b : Nat} (hr : RendersRange p a b) :
    evalPart p = (rangeList a b).map some := by
  obtain ⟨w1, d1, w2, w3, d2, w4, hw1, hw2, hw3, hw4, hd1, hne1, hv1, hd2, hne2, hv2,
    rfl⟩ := hr
  unfold evalPart
  rw [jsTrim_range_part hw1 hw2 hw3 hw4 hd1 hne1 hd2 hne2]
  rw [if_pos (by simp : '-' ∈ d1 ++ w2 ++ '-' :: (w3 ++ d2))]
  rw [expandRange_renders hw2 hw3 hd1 hne1 hd2 hne2, hv1, hv2]

theorem evalPart_renders {p : List Char} {e : IdEntry} (hr : Renders p e) :
    evalPart p = (entryExpand e).map some := by
  cases e with
  | single n =>
    rw [evalPart_of_rendersSingle hr]
    rfl
  | range a b => exact evalPart_of_rendersRange hr

theorem evalPart_trimLeft (p : List Char) : evalPart (trimLeft p) = evalPart p := by
  unfold evalPart
  rw [jsTrim_trimLeft]

theorem evalPart_trimRight (p : List Char) : evalPart (trimRight p) = evalPart p := by
  unfold evalPart
  rw [jsTrim_trimRight]

theorem renders_no_comma {p : List Char} {e : IdEntry} (hr : Renders p e) : ',' ∉ p := by
  cases e with
  | single n =>
    obtain ⟨w1, d, w2, hw1, hw2, hd, _, _, rfl⟩ := hr
    intro hm
    rcases List.mem_append.mp hm with hm1 | hm1
    · rcases List.mem_append.mp hm1 with hm2 | hm2
      · exact absurd (hw1 _ hm2) (by decide)
      · exact absurd (hd _ hm2) (by decide)
    · exact absurd (hw2 _ hm1) (by decide)
  | range a b =>
    obtain ⟨w1, d1, w2, w3, d2, w4, hw1, hw2, hw3, hw4, hd1, _, _, hd2, _, _, rfl⟩ := hr
    intro hm
    rcases List.mem_append.mp hm with hm1 | hm1
    · rcases List.mem_append.mp hm1 with hm2 | hm2
      · rcases List.mem_append.mp hm2 with hm3 | hm3
        · exact absurd (hw1 _ hm3) (by decide)
        · exact absurd (hd1 _ hm3) (by decide)
      · exact absurd (hw2 _ hm2) (by decide)
    · rcases List.mem_cons.mp hm1 with heq | hm2
      · exact absurd heq (by decide)
      · rcases List.mem_append.mp hm2 with hm3 | hm3
        · rcases List.mem_append.mp hm3 with hm4 | hm4
          · exact absurd (hw3 _ hm4) (by decide)
          · exact absurd (hd2 _ hm4) (by decide)
        · exact absurd (hw4 _ hm3) (by decide)

theorem forall₂_renders_no_comma {parts : List (List Char)} {entries : List IdEntry}
    (h : List.Forall₂ Renders parts entries) : ∀ x ∈ parts, ',' ∉ x := by
  induction h with
  | nil => intro x hm; cases hm
  | cons hpe htail ih =>
    intro x hm
    rcases List.mem_cons.mp hm with rfl | hm'
    · exact renders_no_comma hpe
    · exact ih x hm'

theorem flatMap_evalPart_eq {parts : List (List Char)} {entries : List IdEntry}
    (h : List.Forall₂ Renders parts entries) :
    parts.flatMap evalPart = (entries.flatMap entryExpand).map some := by
  induction h with
  | nil => rfl
  | cons hpe htail ih =>
    rw [List.flatMap_cons, List.flatMap_cons, List.map_append, ih,
      evalPart_renders hpe]

theorem joinComma_cons (p : List Char) (ps : List (List Char)) (hps : ps ≠ []) :
    joinComma (p :: ps) = p ++ ',' :: joinComma ps := by
  rcases ps with _ | ⟨q, ps'⟩
  · exact absurd rfl hps
  · rfl

theorem split_trimRight_join (parts : List (List Char)) (hne : parts ≠ [])
    (hnc : ∀ p ∈ parts, ',' ∉ p) :
    (jsSplit ',' (trimRight (joinComma parts))).flatMap evalPart =
      parts.flatMap evalPart := by
  induction parts with
  | nil => exact absurd rfl hne
  | cons p ps ih =>
    rcases hps : ps with _ | ⟨q, ps'⟩
    · have hc : ',' ∉ trimRight p := fun hm =>
        hnc p (List.mem_cons_self _ _) (mem_of_mem_trimRight hm)
      rw [show joinComma [p] = p from rfl, jsSplit_not_mem hc]
      simp [evalPart_trimRight]
    · subst hps
      rw [joinComma_cons p (q :: ps') (by simp)]
      rw [trimRight_append_cons (by decide)]
      rw [jsSplit_append_cons (fun hm => hnc p (List.mem_cons_self _ _) hm)]
      rw [List.flatMap_cons, List.flatMap_cons]
      rw [ih (by simp) (fun x hm => hnc x (List.mem_cons_of_mem _ hm))]

theorem parseItemIds_join (p : List Char) (ps : List (List Char)) (hps : ps ≠ [])
    (hnc : ∀ x ∈ p :: ps, ',' ∉ x) :
    parseItemIds (joinComma (p :: ps)) = .seq ((p :: ps).flatMap evalPart) := by
  rw [joinComma_cons p ps hps]
  have hcm : ',' ∈ jsTrim (p ++ ',' :: joinComma ps) :=
    mem_jsTrim_of_neg (by decide) (by simp)
  simp only [parseItemIds]
  rw [if_pos hcm]
  rw [jsTrim_append_cons (by decide)]
  rw [jsSplit_append_cons
    (fun hm => hnc p (List.mem_cons_self _ _) (mem_of_mem_trimLeft hm))]
  rw [List.flatMap_cons, evalPart_trimLeft]
  rw [split_trimRight_join ps hps (fun x hm => hnc x (List.mem_cons_of_mem _ hm))]
  rw [← List.flatMap_cons]

theorem parseItemIds_one_single {p : List Char} {n : Nat} (hp : RendersSingle p n) :
    parseItemIds p = .scalar (some (n : Int)) := by
  obtain ⟨w1, d, w2, hw1, hw2, hd, hdne, hval, rfl⟩ := hp
  simp only [parseItemIds]
  rw [jsTrim_token hw1 hw2 hd]
  rw [if_neg (not_mem_of_allDigits hd (by decide))]
  rw [if_neg (not_mem_of_allDigits hd (by decide))]
  rw [jsParseInt_digits hd hdne, hval]

theorem no_comma_range_core {d1 w2 w3 d2 : List Char} (hw2 : AllWs w2) (hw3 : AllWs w3)
    (hd1 : AllDigits d1) (hd2 : AllDigits d2) :
    ',' ∉ d1 ++ w2 ++ '-' :: (w3 ++ d2) := by
  intro hm
  rcases List.mem_append.mp hm with hm1 | hm1
  · rcases List.mem_append.mp hm1 with hm2 | hm2
    · exact absurd (hd1 _ hm2) (by decide)
    · exact absurd (hw2 _ hm2) (by decide)
  · rcases List.mem_cons.mp hm1 with heq | hm2
    · exact absurd heq (by decide)
    · rcases List.mem_append.mp hm2 with hm3 | hm3
      · exact absurd (hw3 _ hm3) (by decide)
      · exact absurd (hd2 _ hm3) (by decide)

theorem parseItemIds_one_range {p : List Char} {a b : Nat} (hp : RendersRange p a b) :
    parseItemIds p = .seq ((rangeList a b).map some) := by
  obtain ⟨w1, d1, w2, w3, d2, w4, hw1, hw2, hw3, hw4, hd1, hne1, hv1, hd2, hne2, hv2,
    rfl⟩ := hp
  simp only [parseItemIds]
  rw [jsTrim_range_part hw1 hw2 hw3 hw4 hd1 hne1 hd2 hne2]
  rw [if_neg (no_comma_range_core hw2 hw3 hd1 hd2)]
  rw [if_pos (by simp : '-' ∈ d1 ++ w2 ++ '-' :: (w3 ++ d2))]
  rw [expandRange_renders hw2 hw3 hd1 hne1 hd2 hne2, hv1, hv2]

/-! ## Claims C3, C10, C4: `parseItemIds` -/

/-- C3: for every well-formed id string — a comma-join of parts, each part
spelling a single integer or an ascending hyphenated range, with
whitespace tolerated around numbers, hyphens and commas — `parseItemIds`
implements the §4.1 grammar: a lone integer yields the bare scalar (not a
sequence), a lone range yields the full inclusive ascending range, and a
comma-separated input yields the concatenation of every part's expansion
in parts-order. -/
theorem parseItemIds_c3 (entries : List IdEntry) (parts : List (List Char))
    (hr : List.Forall₂ Renders parts entries) (hne : entries ≠ [])
    (hwf : ∀ e ∈ entries, entryWf e) :
    parseItemIds (joinComma parts) = expectedResult entries := by
  cases hr with
  | nil => exact absurd rfl hne
  | @cons p e parts' entries' hpe htail =>
    cases htail with
    | nil =>
      rw [show joinComma [p] = p from rfl]
      cases e with
      | single n => exact parseItemIds_one_single hpe
      | range a b => exact parseItemIds_one_range hpe
    | @cons q e' parts'' entries'' hqe htail2 =>
      have hall : List.Forall₂ Renders (p :: q :: parts'') (e :: e' :: entries'') :=
        List.Forall₂.cons hpe (List.Forall₂.cons hqe htail2)
      rw [parseItemIds_join p (q :: parts'') (by simp)
        (forall₂_renders_no_comma hall)]
      rw [flatMap_evalPart_eq hall]
      rfl

/-- Witness for C3 at the spec's example `"1704-1706, 11976, 11978"`. -/
theorem parseItemIds_c3_witness :
    parseItemIds (String.toList "1704-1706, 11976, 11978") =
      IdResult.seq [some 1704, some 1705, some 1706, some 11976, some 11978] := by
  have h := parseItemIds_c3
    [IdEntry.range 1704 1706, IdEntry.single 11976, IdEntry.single 11978]
    [String.toList "1704-1706", String.toList " 11976", String.toList " 11978"]
    (List.Forall₂.cons
      ⟨[], String.toList "1704", [], [], String.toList "1706", [],
        by decide, by decide, by decide, by decide, by decide, by decide,
        by decide, by decide, by decide, by decide, by decide⟩
      (List.Forall₂.cons
        ⟨[' '], String.toList "11976", [], by decide, by decide, by decide,
          by decide, by decide, by decide⟩
        (List.Forall₂.cons
          ⟨[' '], String.toList "11978", [], by decide, by decide, by decide,
            by decide, by decide, by decide⟩
          List.Forall₂.nil)))
    (by simp) (by decide)
  exact h.trans (by decide)

/-- C10: a hyphenated input `A-B` with `A > B` expands to the empty
sequence — the counting loop never runs and the range is never reordered —
both as a comma-free input and as a part of a comma-separated list, where
it contributes no elements. -/
theorem parseItemIds_c10 (a b : Nat) (hab : b < a) (p : List Char)
    (hp : RendersRange p a b) :
    parseItemIds p = .seq [] ∧
    ∀ pre post : List (List Char), (∀ x ∈ pre ++ post, ',' ∉ x) →
      parseItemIds (joinComma (pre ++ p :: post)) =
        .seq ((pre ++ post).flatMap evalPart) := by
  have hrl : rangeList (a : Int) (b : Int) = [] := by
    have h0 : ((b : Int) + 1 - a).toNat = 0 := by omega
    rw [rangeList, h0]
    rfl
  have hevalp : evalPart p = [] := by
    rw [evalPart_of_rendersRange hp, hrl]
    rfl
  have hone : parseItemIds p = .seq [] := by
    rw [parseItemIds_one_range hp, hrl]
    rfl
  refine ⟨hone, fun pre post hq => ?_⟩
  rcases pre with _ | ⟨p0, pre'⟩
  · rcases post with _ | ⟨q, post'⟩
    · simpa using hone
    · have hnc : ∀ x ∈ p :: q :: post', ',' ∉ x := by
        intro x hm
        rcases List.mem_cons.mp hm with rfl | hm'
        · exact renders_no_comma (e := IdEntry.range a b) hp
        · exact hq x (by simpa using hm')
      rw [show ([] : List (List Char)) ++ p :: q :: post' = p :: q :: post' from rfl]
      rw [parseItemIds_join p (q :: post') (by simp) hnc]
      simp [hevalp]
  · have hnc : ∀ x ∈ p0 :: (pre' ++ p :: post), ',' ∉ x := by
      intro x hm
      rcases List.mem_cons.mp hm with rfl | hm'
      · exact hq x (by simp)
      · rcases List.mem_append.mp hm' with h1 | h1
        · exact hq x (by simp [h1])
        · rcases List.mem_cons.mp h1 with rfl | h2
          · exact renders_no_comma (e := IdEntry.range a b) hp
          · exact hq x (by simp [h2])
    rw [List.cons_append]
    rw [parseItemIds_join p0 (pre' ++ p :: post) (by simp) hnc]
    simp [List.flatMap_append, hevalp]

/-- Witness for C10 at `"5-3"` (alone and inside `"5-3, 7"`). -/
theorem parseItemIds_c10_witness :
    parseItemIds (String.toList "5-3") = IdResult.seq [] ∧
    parseItemIds (String.toList "5-3, 7") = IdResult.seq [some 7] := by
  have h := parseItemIds_c10 5 3 (by decide) (String.toList "5-3")
    ⟨[], String.toList "5", [], [], String.toList "3", [],
      by decide, by decide, by decide, by decide, by decide, by decide,
      by decide, by decide, by decide, by decide, by decide⟩
  refine ⟨h.1, ?_⟩
  have h2 := h.2 [] [String.toList " 7"] (by decide)
  exact h2.trans (by decide)

/-- C4 (code behavior at the failing input): on malformed numeric text the
source returns the invalid numeric sentinel (JS `NaN`, modelled `none`)
inside the result instead of an explicit error outcome — `parseItemIds
"abc"` evaluates to the scalar NaN. -/
theorem parseItemIds_c4 : parseItemIds (String.toList "abc") = .scalar none := by
  decide

/-! ## Regression checks mirroring the repository's test suite (§8) -/

theorem test_parseItemName_variant :
    parseItemName (String.toList "Amulet of glory#1") =
      { baseName := String.toList "Amulet of glory", variant := some ['1'] } := by
  decide

theorem test_constructImageFilename_simple :
    constructImageFilename (String.toList "Abyssal bludgeon") =
      String.toList "Abyssal_bludgeon_detail.png" := by
  decide

theorem test_constructImageFilename_apostrophes :
    constructImageFilename (String.toList "'24-carat' sword") =
      String.toList "%2724-carat%27_sword_detail.png" := by
  decide

theorem test_getItemImageUrl_default :
    getItemImageUrl (String.toList "Abyssal bludgeon") =
      String.toList
        "https://oldschool.runescape.wiki/images/thumb/Abyssal_bludgeon_detail.png/120px-Abyssal_bludgeon_detail.png" := by
  decide

theorem test_parseItemIds_scalar :
    parseItemIds (String.toList "13263") = .scalar (some 13263) := by
  decide

theorem test_parseItemIds_whitespace :
    parseItemIds (String.toList "  1704 - 1706  ") =
      .seq [some 1704, some 1705, some 1706] := by
  decide

end ItemData
